import Mathlib

/-!
# Verification of the Ashtavakra Gita verse extractor

A shallow embedding of the repository's core (src/config.py, src/utils.py,
src/main.py) over `List Char` (a Python `str` of the relevant ASCII text),
together with proofs settling the frozen claims about the spec.

Python strings are embedded as `List Char`; a document is a `List (List Char)`
of lines (the result of `str.split('\n')`).  Machine details that the claims
do not touch (Unicode categories beyond ASCII whitespace/digits) are modelled
for the ASCII character range the program's inputs use.
-/

namespace AvgExtractor

/-- ASCII whitespace as recognised by Python's `str.strip()` and the regex
class `\s` on the program's (ASCII) inputs: space, tab, newline, carriage
return, vertical tab, form feed. -/
def pySpace (c : Char) : Bool :=
  c == ' ' || c == '\t' || c == '\n' || c == '\r' || c == '\x0b' || c == '\x0c'

/-- Python `str.strip()`: drop leading and trailing whitespace. -/
def pyStrip (l : List Char) : List Char :=
  ((l.dropWhile pySpace).reverse.dropWhile pySpace).reverse

/-- The regex class `\d` on the program's ASCII indices: a decimal digit. -/
def isDigitC (c : Char) : Bool := c.isDigit

/-- config.py: `TEXT_START_MARKER = "# Text"`. -/
def TEXT_START_MARKER : List Char := ("# Text").data

/-- config.py: `VERSE_REFERENCE_MARKER = "Avg_"`. -/
def VERSE_REFERENCE_MARKER : List Char := ("Avg_").data

/-- config.py: `ERROR_NO_SOURCE`. -/
def ERROR_NO_SOURCE : List Char :=
  ("Either text_content, url, or file_path must be provided").data

/-- Model of `re.match` applied to config.py's
`VERSE_PATTERN = r'(.*?)//\s*Avg_(\d+\.\d+)\s*$'`
against `s`, returning the two capture groups on success.

Because the pattern is anchored at both ends (`re.match` anchors the start,
`$` the end), a matching decomposition of `s` is unique, so the match is
computed deterministically from the right end of the string: strip the
trailing `\s*`, read the second `\d+`, the literal `.`, the first `\d+`, the
literal `Avg_`, the inner `\s*`, the literal `//`; everything before is the
group-1 content, which `(.*?)` forbids to contain a newline.  The theorem
`matchVerse_iff_regexMatch` proves this function equivalent to the declarative
reading of the pattern. -/
def matchVerse (s : List Char) : Option (List Char × List Char) :=
  let r := s.reverse
  let r1 := r.dropWhile pySpace
  let d2r := r1.takeWhile isDigitC
  if d2r.isEmpty then none else
  match r1.dropWhile isDigitC with
  | '.' :: r2 =>
    let d1r := r2.takeWhile isDigitC
    if d1r.isEmpty then none else
    (match r2.dropWhile isDigitC with
     | '_' :: 'g' :: 'v' :: 'A' :: r3 =>
       (match r3.dropWhile pySpace with
        | '/' :: '/' :: r5 =>
          let content := r5.reverse
          if content.any (fun c => c == '\n') then none
          else some (pyStrip content, d1r.reverse ++ '.' :: d2r.reverse)
        | _ => none)
     | _ => none)
  | _ => none

/-- utils.py `detect_verse_format`: match the verse pattern against
`line.strip()`; on success return `(group(1).strip(), group(2))` (the strip of
group 1 is already folded into `matchVerse`), else `(None, None)` (here:
`none`). -/
def detect_verse_format (line : List Char) : Option (List Char × List Char) :=
  matchVerse (pyStrip line)

/-- Python `pending_lines[-1]` (the most recently appended pending line);
total, defaulting to `[]` — the program only evaluates it on a non-empty
buffer. -/
def lastStr : List (List Char) → List Char
  | [] => []
  | [x] => x
  | _ :: x :: xs => lastStr (x :: xs)

/-- Python `"\n".join(ls)`. -/
def joinNL : List (List Char) → List Char
  | [] => []
  | [x] => x
  | x :: y :: ys => x ++ '\n' :: joinNL (y :: ys)

/-- Python `s.split('\n')` (always non-empty; keeps empty pieces). -/
def splitNL : List Char → List (List Char)
  | [] => [[]]
  | c :: rest =>
    if c = '\n' then [] :: splitNL rest
    else
      match splitNL rest with
      | [] => [[c]]
      | s :: ss => (c :: s) :: ss

/-- The output unit of utils.py `group_verse_lines`: the dict
`{"verse": ..., "index": ...}`. -/
structure VerseRecord where
  verse : List Char
  index : List Char
deriving DecidableEq, Repr

/-- The record appended in the marker branch of `group_verse_lines`: with a
pending line, `pending_lines[-1]` and the marker content newline-joined under
the marker's index; without one, just the marker content. -/
def mkRec (pending : List (List Char)) (c idx : List Char) : VerseRecord :=
  if pending.isEmpty then ⟨c, idx⟩ else ⟨lastStr pending ++ '\n' :: c, idx⟩

/-- The `while i < len(lines)` scan of utils.py `group_verse_lines`, with the
mutable state made explicit: `pending` is `pending_lines`, the first result
component is the sequence of records this scan appends to `verses`, the second
is the value of `pending_lines` when the loop exits.  Mirrors the source line
by line:
* blank (after strip) lines are skipped;
* a line whose `detect_verse_format` succeeds appends one record (`mkRec`) and
  clears `pending_lines`;
* otherwise the line is appended to `pending_lines`, and if the immediately
  next line exists, is non-blank, and carries a marker, the two are combined
  into a record at once, the next line is consumed and `pending_lines`
  cleared. -/
def groupLoop : List (List Char) → List (List Char) → List VerseRecord × List (List Char)
  | pending, [] => ([], pending)
  | pending, [l] =>
    let line := pyStrip l
    if line = [] then ([], pending)
    else
      match detect_verse_format line with
      | some (c, idx) => ([mkRec pending c idx], [])
      | none => ([], pending ++ [line])
  | pending, l :: nl :: rest2 =>
    let line := pyStrip l
    if line = [] then groupLoop pending (nl :: rest2)
    else
      match detect_verse_format line with
      | some (c, idx) =>
        let r := groupLoop [] (nl :: rest2)
        (mkRec pending c idx :: r.1, r.2)
      | none =>
        let nline := pyStrip nl
        if nline = [] then groupLoop (pending ++ [line]) (nl :: rest2)
        else
          match detect_verse_format nline with
          | some (nc, nidx) =>
            let r := groupLoop [] rest2
            (⟨line ++ '\n' :: nc, nidx⟩ :: r.1, r.2)
          | none => groupLoop (pending ++ [line]) (nl :: rest2)

/-- utils.py `group_verse_lines`: run the scan, then — if pending lines remain
and at least one verse was emitted — append the newline-joined leftovers onto
the last verse's text. -/
def group_verse_lines (lines : List (List Char)) : List VerseRecord :=
  let r := groupLoop [] lines
  if r.2 ≠ [] ∧ r.1 ≠ [] then
    r.1.dropLast ++
      [⟨(r.1.getLastD ⟨[], []⟩).verse ++ '\n' :: joinNL r.2,
        (r.1.getLastD ⟨[], []⟩).index⟩]
  else r.1

/-- The `while i < len(lines) and not lines[i].strip(): i += 1` skip in
utils.py `find_text_section`: how many leading lines are blank. -/
def countLeadingBlank : List (List Char) → Nat
  | [] => 0
  | l :: ls => if pyStrip l = [] then countLeadingBlank ls + 1 else 0

/-- Python `VERSE_REFERENCE_MARKER in line`: substring containment of
`"Avg_"`. -/
def containsAvg (l : List Char) : Bool :=
  l.tails.any (fun t => VERSE_REFERENCE_MARKER.isPrefixOf t)

/-- The first loop of utils.py `find_text_section`: the position just past the
first line whose strip equals `TEXT_START_MARKER` and past the blank lines
after it, if such a line exists. -/
def findAfterMarker : List (List Char) → Option Nat
  | [] => none
  | l :: ls =>
    if pyStrip l = TEXT_START_MARKER then some (1 + countLeadingBlank ls)
    else (findAfterMarker ls).map (· + 1)

/-- The second loop of utils.py `find_text_section`: the position of the first
line containing the substring `"Avg_"`, if any. -/
def findAvg : List (List Char) → Option Nat
  | [] => none
  | l :: ls => if containsAvg l then some 0 else (findAvg ls).map (· + 1)

/-- utils.py `find_text_section`: first loop, else second loop, else 0. -/
def find_text_section (lines : List (List Char)) : Nat :=
  match findAfterMarker lines with
  | some i => i
  | none =>
    match findAvg lines with
    | some j => j
    | none => 0

/-- Python truthiness of an `Optional[str]` argument: `None` and `""` are
falsy. -/
def truthyOpt : Option (List Char) → Bool
  | none => false
  | some s => !s.isEmpty

/-- main.py `VerseExtractor.__init__`: pick the text source by truthiness of
`text_content`, then `url`, then `file_path`, else raise
`ValueError(ERROR_NO_SOURCE)`.  The two I/O collaborators (`_fetch_text`,
`_read_file`) are passed in as functions that either produce the blob or fail
with their own message. -/
def verseExtractorInit (text_content url file_path : Option (List Char))
    (fetch readFile : List Char → Except (List Char) (List Char)) :
    Except (List Char) (List Char) :=
  if truthyOpt text_content then Except.ok (text_content.getD [])
  else if truthyOpt url then fetch (url.getD [])
  else if truthyOpt file_path then readFile (file_path.getD [])
  else Except.error ERROR_NO_SOURCE

/-! ## Character and list helper lemmas -/

theorem pySpace_iff {c : Char} :
    pySpace c = true ↔
      c = ' ' ∨ c = '\t' ∨ c = '\n' ∨ c = '\r' ∨ c = '\x0b' ∨ c = '\x0c' := by
  simp [pySpace, or_assoc]

theorem not_pySpace_of_isDigitC {c : Char} (h : isDigitC c = true) : pySpace c = false := by
  rcases Bool.eq_false_or_eq_true (pySpace c) with hs | hs
  · rcases pySpace_iff.mp hs with h1 | h1 | h1 | h1 | h1 | h1 <;>
      (subst h1; exact absurd h (by decide))
  · exact hs

theorem dropWhile_append_all {p : Char → Bool} {a b : List Char}
    (ha : ∀ x ∈ a, p x = true) : (a ++ b).dropWhile p = b.dropWhile p := by
  induction a with
  | nil => simp
  | cons x xs ih =>
    have hx : p x = true := ha x (by simp)
    simp only [List.cons_append, List.dropWhile_cons, hx, if_true]
    exact ih (fun y hy => ha y (by simp [hy]))

theorem dropWhile_eq_self_of_head {p : Char → Bool} {l : List Char}
    (h : ∀ y, l.head? = some y → p y = false) : l.dropWhile p = l := by
  cases l with
  | nil => rfl
  | cons x xs =>
    have := h x rfl
    simp [List.dropWhile_cons, this]

theorem dropWhile_append_of_head {p : Char → Bool} {a b : List Char}
    (ha : ∀ x ∈ a, p x = true) (hb : ∀ y, b.head? = some y → p y = false) :
    (a ++ b).dropWhile p = b := by
  rw [dropWhile_append_all ha, dropWhile_eq_self_of_head hb]

theorem takeWhile_append_of_head {p : Char → Bool} {a b : List Char}
    (ha : ∀ x ∈ a, p x = true) (hb : ∀ y, b.head? = some y → p y = false) :
    (a ++ b).takeWhile p = a := by
  have h := List.takeWhile_append_dropWhile (p := p) (l := a ++ b)
  rw [dropWhile_append_of_head ha hb] at h
  exact (List.append_left_injective b).eq_iff.mp h

theorem head?_dropWhile_not {p : Char → Bool} (l : List Char) :
    ∀ y, (l.dropWhile p).head? = some y → p y = false := by
  induction l with
  | nil => intro y hy; simp at hy
  | cons x xs ih =>
    intro y hy
    by_cases hx : p x = true
    · rw [List.dropWhile_cons, if_pos hx] at hy
      exact ih y hy
    · rw [List.dropWhile_cons, if_neg hx] at hy
      simp at hy
      subst hy
      exact Bool.eq_false_iff.mpr hx

theorem getLast?_dropWhile {p : Char → Bool} {l : List Char}
    (h : l.dropWhile p ≠ []) : (l.dropWhile p).getLast? = l.getLast? := by
  conv_rhs => rw [← List.takeWhile_append_dropWhile (p := p) (l := l)]
  rw [List.getLast?_append]
  rcases hx : (l.dropWhile p).getLast? with _ | y
  · exact absurd (List.getLast?_eq_none_iff.mp hx) h
  · rfl

/-! ## pyStrip lemmas -/

/-- A string with no leading and no trailing whitespace. -/
def Stripped (l : List Char) : Prop :=
  (∀ y, l.head? = some y → pySpace y = false) ∧
  (∀ y, l.getLast? = some y → pySpace y = false)

theorem pyStrip_eq_self_of_stripped {l : List Char} (h : Stripped l) : pyStrip l = l := by
  unfold pyStrip
  rw [dropWhile_eq_self_of_head h.1]
  rw [dropWhile_eq_self_of_head (by simpa [List.head?_reverse] using h.2)]
  exact List.reverse_reverse l

theorem stripped_pyStrip (l : List Char) : Stripped (pyStrip l) := by
  unfold pyStrip
  constructor
  · intro y hy
    rw [List.head?_reverse] at hy
    by_cases hne : (l.dropWhile pySpace).reverse.dropWhile pySpace = []
    · rw [hne] at hy; simp at hy
    · rw [getLast?_dropWhile hne, List.getLast?_reverse] at hy
      exact head?_dropWhile_not l y hy
  · intro y hy
    rw [List.getLast?_reverse] at hy
    exact head?_dropWhile_not _ y hy

theorem pyStrip_idem (l : List Char) : pyStrip (pyStrip l) = pyStrip l :=
  pyStrip_eq_self_of_stripped (stripped_pyStrip l)

theorem pyStrip_nil : pyStrip [] = [] := rfl

theorem pyStrip_append_space {l ws : List Char} (hws : ∀ x ∈ ws, pySpace x = true) :
    pyStrip (l ++ ws) = pyStrip l := by
  unfold pyStrip
  by_cases hl : l.dropWhile pySpace = []
  · have hwsnil : ws.dropWhile pySpace = [] := by
      rcases hd : ws.dropWhile pySpace with _ | ⟨y, ys⟩
      · rfl
      · have hy : y ∈ ws := (List.dropWhile_sublist pySpace).mem (by rw [hd]; simp)
        have := head?_dropWhile_not ws y (by rw [hd]; rfl)
        rw [hws y hy] at this
        exact absurd this (by simp)
    rw [List.dropWhile_append, hl]
    simp [hwsnil]
  · rw [List.dropWhile_append, if_neg (by simpa [List.isEmpty_iff] using hl)]
    rw [List.reverse_append]
    rw [dropWhile_append_all (by intro x hx; exact hws x (List.mem_reverse.mp hx))]

theorem mem_pyStrip {x : Char} {l : List Char} (h : x ∈ pyStrip l) : x ∈ l := by
  unfold pyStrip at h
  rw [List.mem_reverse] at h
  have h2 := (List.dropWhile_sublist (l := (l.dropWhile pySpace).reverse) pySpace).mem h
  rw [List.mem_reverse] at h2
  exact (List.dropWhile_sublist pySpace).mem h2

/-! ## Declarative reading of VERSE_PATTERN and its characterization -/

/-- The shape of a dotted `chapter.verse` identifier, as produced by the
capture group `(\d+\.\d+)`. -/
def IdxForm (i : List Char) : Prop :=
  ∃ d1 d2, i = d1 ++ '.' :: d2 ∧ d1 ≠ [] ∧ d2 ≠ [] ∧
    (∀ x ∈ d1, isDigitC x = true) ∧ (∀ x ∈ d2, isDigitC x = true)

/-- The declarative reading of a full-line match of
`VERSE_PATTERN = r'(.*?)//\s*Avg_(\d+\.\d+)\s*$'` against `s`, with the
returned groups `c` (group 1, stripped) and `i` (group 2): the whole of `s`
decomposes as content, the literal `//`, whitespace, the literal `Avg_`, the
dotted numeric identifier and trailing whitespace, where the content (matched
by `.`) contains no newline. -/
def RegexMatch (s c i : List Char) : Prop :=
  ∃ content ws1 d1 d2 ws2,
    s = content ++ '/' :: '/' ::
      (ws1 ++ 'A' :: 'v' :: 'g' :: '_' :: (d1 ++ '.' :: (d2 ++ ws2))) ∧
    (∀ x ∈ ws1, pySpace x = true) ∧ (∀ x ∈ ws2, pySpace x = true) ∧
    d1 ≠ [] ∧ d2 ≠ [] ∧
    (∀ x ∈ d1, isDigitC x = true) ∧ (∀ x ∈ d2, isDigitC x = true) ∧
    (∀ x ∈ content, x ≠ '\n') ∧
    c = pyStrip content ∧ i = d1 ++ '.' :: d2

theorem head?_reverse_ne_space_of_digits {d : List Char} (_hne : d ≠ [])
    (hd : ∀ x ∈ d, isDigitC x = true) :
    ∀ y, d.reverse.head? = some y → pySpace y = false := by
  intro y hy
  rw [List.head?_reverse] at hy
  have hmem : y ∈ d := by
    have := List.mem_of_mem_head? (l := d.reverse) (a := y) (by rw [List.head?_reverse]; exact hy)
    exact List.mem_reverse.mp this
  exact not_pySpace_of_isDigitC (hd y hmem)

theorem mv_complete {s c i : List Char} (h : RegexMatch s c i) : matchVerse s = some (c, i) := by
  obtain ⟨content, ws1, d1, d2, ws2, hs, hws1, hws2, hd1ne, hd2ne, hd1, hd2, hnl, hc, hi⟩ := h
  have hrev : s.reverse =
      ws2.reverse ++ (d2.reverse ++ ('.' :: (d1.reverse ++
        ('_' :: 'g' :: 'v' :: 'A' :: (ws1.reverse ++ ('/' :: '/' :: content.reverse)))))) := by
    subst hs; simp
  have hd2rev : ∀ x ∈ d2.reverse, isDigitC x = true := fun x hx => hd2 x (List.mem_reverse.mp hx)
  have hd1rev : ∀ x ∈ d1.reverse, isDigitC x = true := fun x hx => hd1 x (List.mem_reverse.mp hx)
  have hws2rev : ∀ x ∈ ws2.reverse, pySpace x = true := fun x hx => hws2 x (List.mem_reverse.mp hx)
  have hws1rev : ∀ x ∈ ws1.reverse, pySpace x = true := fun x hx => hws1 x (List.mem_reverse.mp hx)
  have h1 : s.reverse.dropWhile pySpace =
      d2.reverse ++ ('.' :: (d1.reverse ++
        ('_' :: 'g' :: 'v' :: 'A' :: (ws1.reverse ++ ('/' :: '/' :: content.reverse))))) := by
    rw [hrev]
    refine dropWhile_append_of_head hws2rev ?_
    intro y hy
    rw [List.head?_append] at hy
    rcases hh : d2.reverse.head? with _ | z
    · rw [List.head?_reverse, List.getLast?_eq_none_iff] at hh
      exact absurd hh hd2ne
    · rw [hh] at hy
      have hz : z = y := by simpa using hy
      subst hz
      exact head?_reverse_ne_space_of_digits hd2ne hd2 z hh
  have hdothead : ∀ y,
      (('.' : Char) :: (d1.reverse ++
        ('_' :: 'g' :: 'v' :: 'A' :: (ws1.reverse ++ ('/' :: '/' :: content.reverse))))).head? = some y →
      isDigitC y = false := by
    intro y hy; simp at hy; subst hy; decide
  have h2 : (s.reverse.dropWhile pySpace).takeWhile isDigitC = d2.reverse := by
    rw [h1]; exact takeWhile_append_of_head hd2rev hdothead
  have h3 : (s.reverse.dropWhile pySpace).dropWhile isDigitC =
      '.' :: (d1.reverse ++
        ('_' :: 'g' :: 'v' :: 'A' :: (ws1.reverse ++ ('/' :: '/' :: content.reverse)))) := by
    rw [h1]; exact dropWhile_append_of_head hd2rev hdothead
  have hushead : ∀ y,
      (('_' : Char) :: 'g' :: 'v' :: 'A' :: (ws1.reverse ++ ('/' :: '/' :: content.reverse))).head? = some y →
      isDigitC y = false := by
    intro y hy; simp at hy; subst hy; decide
  have h4 : (d1.reverse ++
      ('_' :: 'g' :: 'v' :: 'A' :: (ws1.reverse ++ ('/' :: '/' :: content.reverse)))).takeWhile isDigitC =
      d1.reverse := takeWhile_append_of_head hd1rev hushead
  have h5 : (d1.reverse ++
      ('_' :: 'g' :: 'v' :: 'A' :: (ws1.reverse ++ ('/' :: '/' :: content.reverse)))).dropWhile isDigitC =
      '_' :: 'g' :: 'v' :: 'A' :: (ws1.reverse ++ ('/' :: '/' :: content.reverse)) :=
    dropWhile_append_of_head hd1rev hushead
  have h6 : (ws1.reverse ++ ('/' :: '/' :: content.reverse)).dropWhile pySpace =
      '/' :: '/' :: content.reverse := by
    refine dropWhile_append_of_head hws1rev ?_
    intro y hy; simp at hy; subst hy; decide
  have hanyc : content.any (fun c => c == '\n') = false := by
    rw [List.any_eq_false]
    intro x hx
    simpa using hnl x hx
  have hd2rne : (d2.reverse).isEmpty = false := by
    simp [List.isEmpty_iff, hd2ne]
  have hd1rne : (d1.reverse).isEmpty = false := by
    simp [List.isEmpty_iff, hd1ne]
  simp only [matchVerse, h2, h3, hd2rne, Bool.false_eq_true, if_false, h4, h5, hd1rne, h6,
    List.reverse_reverse, hanyc]
  rw [hc, hi]

theorem mv_sound {s c i : List Char} (h : matchVerse s = some (c, i)) : RegexMatch s c i := by
  simp only [matchVerse] at h
  split at h
  · exact absurd h (by simp)
  · rename_i hd2ne
    split at h
    · rename_i r2 hdot
      split at h
      · exact absurd h (by simp)
      · rename_i hd1ne
        split at h
        · rename_i r3 hund
          split at h
          · rename_i r5 hsl
            split at h
            · exact absurd h (by simp)
            · rename_i hnl
              rw [Option.some_inj, Prod.mk.injEq] at h
              refine ⟨r5.reverse, ((r2.dropWhile isDigitC).drop 4).takeWhile pySpace |>.reverse,
                (r2.takeWhile isDigitC).reverse, ((s.reverse.dropWhile pySpace).takeWhile isDigitC).reverse,
                (s.reverse.takeWhile pySpace).reverse, ?_, ?_, ?_, ?_, ?_, ?_, ?_, ?_, ?_, ?_⟩
              · -- reconstruct s from the parse
                have e0 : s.reverse.takeWhile pySpace ++ s.reverse.dropWhile pySpace = s.reverse :=
                  List.takeWhile_append_dropWhile _ _
                have e1 : (s.reverse.dropWhile pySpace).takeWhile isDigitC ++
                    ('.' :: r2) = s.reverse.dropWhile pySpace := by
                  rw [← hdot]; exact List.takeWhile_append_dropWhile _ _
                have e2 : r2.takeWhile isDigitC ++
                    ('_' :: 'g' :: 'v' :: 'A' :: r3) = r2 := by
                  rw [← hund]; exact List.takeWhile_append_dropWhile _ _
                have e3 : r3.takeWhile pySpace ++ ('/' :: '/' :: r5) = r3 := by
                  rw [← hsl]; exact List.takeWhile_append_dropWhile _ _
                have e4 : ((r2.dropWhile isDigitC).drop 4).takeWhile pySpace = r3.takeWhile pySpace := by
                  rw [hund]; rfl
                have : s.reverse = s.reverse.takeWhile pySpace ++
                    ((s.reverse.dropWhile pySpace).takeWhile isDigitC ++
                      ('.' :: (r2.takeWhile isDigitC ++
                        ('_' :: 'g' :: 'v' :: 'A' :: (r3.takeWhile pySpace ++ ('/' :: '/' :: r5)))))) := by
                  rw [e3, e2, e1, e0]
                have hdec := congrArg List.reverse this
                rw [List.reverse_reverse] at hdec
                conv_lhs => rw [hdec]
                rw [e4]
                simp
              · intro x hx
                rw [List.mem_reverse] at hx
                exact List.mem_takeWhile_imp hx
              · intro x hx
                rw [List.mem_reverse] at hx
                exact List.mem_takeWhile_imp hx
              · simpa [List.isEmpty_iff] using hd1ne
              · simpa [List.isEmpty_iff] using hd2ne
              · intro x hx
                rw [List.mem_reverse] at hx
                exact List.mem_takeWhile_imp hx
              · intro x hx
                rw [List.mem_reverse] at hx
                exact List.mem_takeWhile_imp hx
              · intro x hx
                have : x ∈ r5.reverse := hx
                intro hxeq
                have : r5.reverse.any (fun c => c == '\n') = true := by
                  rw [List.any_eq_true]
                  exact ⟨x, hx, by simp [hxeq]⟩
                rw [this] at hnl
                exact hnl rfl
              · exact h.1.symm
              · exact h.2.symm
          · exact absurd h (by simp)
        · exact absurd h (by simp)
    · exact absurd h (by simp)

/-- The full characterization of `matchVerse` by the declarative reading of
the pattern. -/
theorem matchVerse_iff_regexMatch (s c i : List Char) :
    matchVerse s = some (c, i) ↔ RegexMatch s c i :=
  ⟨mv_sound, mv_complete⟩

/-- The classifier `detect_verse_format` is insensitive to pre-stripping its argument
(Python strips inside the function; `group_verse_lines` also strips before
calling it). -/
theorem detect_pyStrip (l : List Char) :
    detect_verse_format (pyStrip l) = detect_verse_format l := by
  unfold detect_verse_format
  rw [pyStrip_idem]

/-- What `detect_verse_format` guarantees about a successful result: the
content is stripped and newline-free, and the index has the dotted numeric
shape. -/
theorem detect_post {line c i : List Char}
    (h : detect_verse_format line = some (c, i)) :
    pyStrip c = c ∧ (∀ x ∈ c, x ≠ '\n') ∧ IdxForm i := by
  have hr := mv_sound h
  obtain ⟨content, ws1, d1, d2, ws2, _, _, _, hd1ne, hd2ne, hd1, hd2, hnl, hc, hi⟩ := hr
  refine ⟨?_, ?_, d1, d2, hi, hd1ne, hd2ne, hd1, hd2⟩
  · rw [hc]; exact pyStrip_idem content
  · intro x hx
    rw [hc] at hx
    exact hnl x (mem_pyStrip hx)

/-! ## Claim C2 — line classification -/

/-- C2, as stated, is false: on a line containing two marker-like tokens the
classifier honors the *final* one, not the first.  On
`"a // Avg_1.1 // Avg_2.2"` the extracted index is `"2.2"` (the second
marker), with the first marker absorbed into the content, whereas the claim
says only the first marker-like token is honored as the structural marker. -/
theorem claimC2_counterexample :
    detect_verse_format (("a // Avg_1.1 // Avg_2.2").data) =
      some ((("a // Avg_1.1").data), (("2.2").data)) ∧
    (("2.2").data) ≠ (("1.1").data) := by
  constructor
  · rfl
  · decide

/-- C2 (amended): the classifier matches the trimmed line against the
structural pattern anchored to the entire line — `detect_verse_format`
returns `some (c, i)` exactly when the whole stripped line decomposes as
content, `//`, whitespace, `Avg_`, a dotted numeric index `i` and trailing
whitespace, with `c` the stripped content; since the pattern is end-anchored,
when the line contains multiple marker-like tokens the *final* one is honored
as the structural marker and everything before the final marker belongs to
content.  On non-match (e.g. a line merely containing the reference substring,
like `"mentions Avg_ in passing"`) it returns no marker. -/
theorem claimC2_theorem :
    ∀ l c i : List Char,
      (detect_verse_format l = some (c, i) ↔ RegexMatch (pyStrip l) c i) ∧
      detect_verse_format (("mentions Avg_ in passing").data) = none := by
  intro l c i
  exact ⟨matchVerse_iff_regexMatch (pyStrip l) c i, by rfl⟩

/-! ## Claim C10 — empty text source -/

/-- C10: constructing the extractor with `text_content = ""` and no `url` or
`file_path` raises `ValueError(ERROR_NO_SOURCE)`: source selection is by
truthiness, and the empty string is falsy, indistinguishable from an absent
source. -/
theorem claimC10_theorem :
    ∀ fetch readFile : List Char → Except (List Char) (List Char),
      verseExtractorInit (some []) none none fetch readFile =
        Except.error ERROR_NO_SOURCE := by
  intro fetch readFile
  rfl

/-! ## groupLoop lemmas -/

theorem mkRec_index (pending : List (List Char)) (c i : List Char) :
    (mkRec pending c i).index = i := by
  unfold mkRec
  split <;> rfl

theorem lastStr_append {xs ys : List (List Char)} (h : ys ≠ []) :
    lastStr (xs ++ ys) = lastStr ys := by
  induction xs with
  | nil => rfl
  | cons x xs ih =>
    rcases xs with _ | ⟨y, ys'⟩
    · rcases ys with _ | ⟨z, zs⟩
      · exact absurd rfl h
      · rfl
    · simpa [lastStr] using ih

theorem lastStr_append_single (p : List (List Char)) (l : List Char) :
    lastStr (p ++ [l]) = l :=
  lastStr_append (by simp)

theorem detect_nil : detect_verse_format [] = none := rfl

theorem detect_blank {l : List Char} (h : pyStrip l = []) :
    detect_verse_format l = none := by
  rw [← detect_pyStrip l, h]
  rfl

theorem groupLoop_blank_cons {l : List Char} (h : pyStrip l = [])
    (pending : List (List Char)) (rest : List (List Char)) :
    groupLoop pending (l :: rest) = groupLoop pending rest := by
  cases rest with
  | nil => simp [groupLoop, h]
  | cons nl rest2 => simp [groupLoop, h]

theorem groupLoop_blank_append {bs : List (List Char)} (hbs : ∀ b ∈ bs, pyStrip b = [])
    (pending : List (List Char)) (rest : List (List Char)) :
    groupLoop pending (bs ++ rest) = groupLoop pending rest := by
  induction bs with
  | nil => rfl
  | cons b bs ih =>
    rw [List.cons_append, groupLoop_blank_cons (hbs b (by simp)) pending]
    exact ih (fun x hx => hbs x (by simp [hx]))

theorem groupLoop_marker {l c i : List Char} (hdet : detect_verse_format l = some (c, i))
    (pending : List (List Char)) (rest : List (List Char)) :
    groupLoop pending (l :: rest) =
      (mkRec pending c i :: (groupLoop [] rest).1, (groupLoop [] rest).2) := by
  have hne : pyStrip l ≠ [] := by
    intro h0
    rw [detect_blank h0] at hdet
    exact absurd hdet (by simp)
  have hdet' : detect_verse_format (pyStrip l) = some (c, i) := by
    rw [detect_pyStrip]; exact hdet
  cases rest with
  | nil => simp [groupLoop, hne, hdet']
  | cons nl rest2 => simp [groupLoop, hne, hdet']

/-- The dotted identifiers of the marker-carrying lines, in document order. -/
def markerIndices (lines : List (List Char)) : List (List Char) :=
  lines.filterMap (fun l => (detect_verse_format l).map Prod.snd)

theorem scan_indices (pending lines : List (List Char)) :
    ((groupLoop pending lines).1).map VerseRecord.index = markerIndices lines := by
  induction pending, lines using groupLoop.induct with
  | case1 pending => simp [groupLoop, markerIndices]
  | case2 pending l line hblank =>
    have hb : pyStrip l = [] := hblank
    simp [groupLoop, hb, markerIndices, detect_blank hb]
  | case3 pending l line hne c idx hdet =>
    have hne' : pyStrip l ≠ [] := hne
    have hdetP : detect_verse_format (pyStrip l) = some (c, idx) := hdet
    have hdetL : detect_verse_format l = some (c, idx) := by
      rw [← detect_pyStrip]; exact hdetP
    simp [groupLoop, hne', hdetP, markerIndices, hdetL, mkRec_index]
  | case4 pending l line hne hdet =>
    have hne' : pyStrip l ≠ [] := hne
    have hdetP : detect_verse_format (pyStrip l) = none := hdet
    have hdetL : detect_verse_format l = none := by
      rw [← detect_pyStrip]; exact hdetP
    simp [groupLoop, hne', hdetP, markerIndices, hdetL]
  | case5 pending l nl rest2 line hblank ih =>
    have hb : pyStrip l = [] := hblank
    rw [groupLoop_blank_cons hb, ih]
    simp [markerIndices, detect_blank hb]
  | case6 pending l nl rest2 line hne c idx hdet ih =>
    have hdetP : detect_verse_format (pyStrip l) = some (c, idx) := hdet
    have hdetL : detect_verse_format l = some (c, idx) := by
      rw [← detect_pyStrip]; exact hdetP
    rw [groupLoop_marker hdetL]
    simp only [List.map_cons, mkRec_index]
    rw [ih]
    simp [markerIndices, hdetL]
  | case7 pending l nl rest2 line hne hdet nline hnblank ih =>
    have hne' : pyStrip l ≠ [] := hne
    have hdetP : detect_verse_format (pyStrip l) = none := hdet
    have hnb : pyStrip nl = [] := hnblank
    have hdetL : detect_verse_format l = none := by
      rw [← detect_pyStrip]; exact hdetP
    simp only [groupLoop, hne', if_false, hdetP, hnb, if_true]
    rw [ih]
    simp [markerIndices, hdetL, detect_blank hnb]
  | case8 pending l nl rest2 line hne hdet nline hnne c idx hdet2 ih =>
    have hne' : pyStrip l ≠ [] := hne
    have hdetP : detect_verse_format (pyStrip l) = none := hdet
    have hnne' : pyStrip nl ≠ [] := hnne
    have hdet2P : detect_verse_format (pyStrip nl) = some (c, idx) := hdet2
    have hdetL : detect_verse_format l = none := by
      rw [← detect_pyStrip]; exact hdetP
    have hdet2L : detect_verse_format nl = some (c, idx) := by
      rw [← detect_pyStrip]; exact hdet2P
    simp only [groupLoop, hne', if_false, hdetP, hnne', hdet2P, if_true]
    simp only [List.map_cons]
    rw [ih]
    simp [markerIndices, hdetL, hdet2L]
  | case9 pending l nl rest2 line hne hdet nline hnne hdet2 ih =>
    have hne' : pyStrip l ≠ [] := hne
    have hdetP : detect_verse_format (pyStrip l) = none := hdet
    have hnne' : pyStrip nl ≠ [] := hnne
    have hdet2P : detect_verse_format (pyStrip nl) = none := hdet2
    have hdetL : detect_verse_format l = none := by
      rw [← detect_pyStrip]; exact hdetP
    have hdet2L : detect_verse_format nl = none := by
      rw [← detect_pyStrip]; exact hdet2P
    simp only [groupLoop, hne', if_false, hdetP, hnne', hdet2P, if_true]
    rw [ih]
    simp [markerIndices, hdetL, hdet2L]

theorem scan_mem {rec : VerseRecord} (pending lines : List (List Char))
    (h : rec ∈ (groupLoop pending lines).1) :
    ∃ l ∈ lines, ∃ c, detect_verse_format l = some (c, rec.index) ∧
      (rec.verse = c ∨ ∃ p : List Char, rec.verse = p ++ '\n' :: c) := by
  induction pending, lines using groupLoop.induct with
  | case1 pending => simp [groupLoop] at h
  | case2 pending l line hblank =>
    have hb : pyStrip l = [] := hblank
    simp [groupLoop, hb] at h
  | case3 pending l line hne c idx hdet =>
    have hne' : pyStrip l ≠ [] := hne
    have hdetP : detect_verse_format (pyStrip l) = some (c, idx) := hdet
    have hdetL : detect_verse_format l = some (c, idx) := by
      rw [← detect_pyStrip]; exact hdetP
    simp [groupLoop, hne', hdetP] at h
    refine ⟨l, by simp, c, ?_, ?_⟩
    · rw [h, mkRec_index]; exact hdetL
    · rw [h]; unfold mkRec; split
      · left; rfl
      · right; exact ⟨lastStr pending, rfl⟩
  | case4 pending l line hne hdet =>
    have hne' : pyStrip l ≠ [] := hne
    have hdetP : detect_verse_format (pyStrip l) = none := hdet
    simp [groupLoop, hne', hdetP] at h
  | case5 pending l nl rest2 line hblank ih =>
    have hb : pyStrip l = [] := hblank
    rw [groupLoop_blank_cons hb] at h
    obtain ⟨l', hl', rest⟩ := ih h
    exact ⟨l', by simp [hl'], rest⟩
  | case6 pending l nl rest2 line hne c idx hdet ih =>
    have hdetP : detect_verse_format (pyStrip l) = some (c, idx) := hdet
    have hdetL : detect_verse_format l = some (c, idx) := by
      rw [← detect_pyStrip]; exact hdetP
    rw [groupLoop_marker hdetL] at h
    rcases List.mem_cons.mp h with hh | hh
    · refine ⟨l, by simp, c, ?_, ?_⟩
      · rw [hh, mkRec_index]; exact hdetL
      · rw [hh]; unfold mkRec; split
        · left; rfl
        · right; exact ⟨lastStr pending, rfl⟩
    · obtain ⟨l', hl', rest⟩ := ih hh
      exact ⟨l', by simp [hl'], rest⟩
  | case7 pending l nl rest2 line hne hdet nline hnblank ih =>
    have hne' : pyStrip l ≠ [] := hne
    have hdetP : detect_verse_format (pyStrip l) = none := hdet
    have hnb : pyStrip nl = [] := hnblank
    simp only [groupLoop, hne', if_false, hdetP, hnb, if_true] at h
    obtain ⟨l', hl', rest⟩ := ih h
    exact ⟨l', by simp [hl'], rest⟩
  | case8 pending l nl rest2 line hne hdet nline hnne c idx hdet2 ih =>
    have hne' : pyStrip l ≠ [] := hne
    have hdetP : detect_verse_format (pyStrip l) = none := hdet
    have hnne' : pyStrip nl ≠ [] := hnne
    have hdet2P : detect_verse_format (pyStrip nl) = some (c, idx) := hdet2
    have hdet2L : detect_verse_format nl = some (c, idx) := by
      rw [← detect_pyStrip]; exact hdet2P
    simp only [groupLoop, hne', if_false, hdetP, hnne', hdet2P, if_true] at h
    rcases List.mem_cons.mp h with hh | hh
    · refine ⟨nl, by simp, c, ?_, ?_⟩
      · rw [hh]; exact hdet2L
      · rw [hh]; right; exact ⟨pyStrip l, rfl⟩
    · obtain ⟨l', hl', rest⟩ := ih hh
      exact ⟨l', by simp [hl'], rest⟩
  | case9 pending l nl rest2 line hne hdet nline hnne hdet2 ih =>
    have hne' : pyStrip l ≠ [] := hne
    have hdetP : detect_verse_format (pyStrip l) = none := hdet
    have hnne' : pyStrip nl ≠ [] := hnne
    have hdet2P : detect_verse_format (pyStrip nl) = none := hdet2
    simp only [groupLoop, hne', if_false, hdetP, hnne', hdet2P, if_true] at h
    obtain ⟨l', hl', rest⟩ := ih h
    exact ⟨l', by simp [hl'], rest⟩

theorem scan_no_marker {lines : List (List Char)}
    (h : ∀ l ∈ lines, detect_verse_format l = none) (pending : List (List Char)) :
    (groupLoop pending lines).1 = [] := by
  rcases hv : (groupLoop pending lines).1 with _ | ⟨rec, recs⟩
  · rfl
  · have hmem : rec ∈ (groupLoop pending lines).1 := by rw [hv]; simp
    obtain ⟨l, hl, c, hdet, _⟩ := scan_mem pending lines hmem
    rw [h l hl] at hdet
    exact absurd hdet (by simp)

theorem map_index_dropLast_getLastD {vs : List VerseRecord} (h : vs ≠ [])
    (f : VerseRecord → List Char) (d : VerseRecord) :
    vs.dropLast.map f ++ [f (vs.getLastD d)] = vs.map f := by
  induction vs with
  | nil => exact absurd rfl h
  | cons x xs ih =>
    rcases xs with _ | ⟨y, ys⟩
    · rfl
    · have h2 := ih (by simp)
      rw [List.getLastD_cons] at h2
      simp only [List.dropLast_cons₂, List.map_cons, List.cons_append, List.getLastD_cons]
      rw [h2]
      simp

theorem map_index_group (lines : List (List Char)) :
    (group_verse_lines lines).map VerseRecord.index =
      ((groupLoop [] lines).1).map VerseRecord.index := by
  simp only [group_verse_lines]
  split
  · rename_i hcond
    rw [List.map_append]
    simpa using map_index_dropLast_getLastD hcond.2 VerseRecord.index ⟨[], []⟩
  · rfl

/-! ## Claim C1 — the marker branch of the grouper -/

/-- C1: when the scan reaches a line carrying a marker while at least one
unmarked line is pending, it emits one record combining the most recent
pending line (`lastStr pending`, i.e. `pending_lines[-1]` — earlier pending
lines are dropped from that record) with the marker's content, newline-joined,
under the marker's index, and continues with a cleared pending buffer; with no
pending line it emits a single-line record of just the marker content and its
index. -/
theorem claimC1_theorem (pending : List (List Char)) (l : List Char)
    (rest : List (List Char)) (c i : List Char)
    (hdet : detect_verse_format l = some (c, i)) :
    groupLoop pending (l :: rest) =
      ((if pending = [] then VerseRecord.mk c i
        else VerseRecord.mk (lastStr pending ++ '\n' :: c) i) :: (groupLoop [] rest).1,
       (groupLoop [] rest).2) := by
  rw [groupLoop_marker hdet]
  congr 2
  unfold mkRec
  simp [List.isEmpty_iff]

theorem claimC1_witness :
    groupLoop [("p").data] [("x // Avg_1.1").data] =
      ((if ([("p").data] : List (List Char)) = [] then VerseRecord.mk (("x").data) (("1.1").data)
        else VerseRecord.mk (lastStr [("p").data] ++ '\n' :: ("x").data) (("1.1").data)) ::
        (groupLoop [] []).1,
       (groupLoop [] []).2) :=
  claimC1_theorem [("p").data] (("x // Avg_1.1").data) [] (("x").data) (("1.1").data) (by rfl)

/-! ## Claim C3 — trailing leftover lines -/

/-- C3: after the scan, leftover pending lines are appended (newline-joined)
onto the last emitted record when one exists, and are discarded when no record
was emitted; in particular a document with no marker line anywhere yields zero
records. -/
theorem claimC3_theorem :
    ∀ lines : List (List Char),
      ((groupLoop [] lines).2 ≠ [] → (groupLoop [] lines).1 ≠ [] →
        group_verse_lines lines =
          ((groupLoop [] lines).1).dropLast ++
            [VerseRecord.mk
              (((groupLoop [] lines).1.getLastD ⟨[], []⟩).verse ++
                '\n' :: joinNL (groupLoop [] lines).2)
              (((groupLoop [] lines).1.getLastD ⟨[], []⟩).index)]) ∧
      ((groupLoop [] lines).1 = [] → group_verse_lines lines = (groupLoop [] lines).1) ∧
      ((∀ l ∈ lines, detect_verse_format l = none) → group_verse_lines lines = []) := by
  intro lines
  refine ⟨?_, ?_, ?_⟩
  · intro h2 h1
    simp only [group_verse_lines]
    rw [if_pos ⟨h2, h1⟩]
  · intro h1
    simp only [group_verse_lines]
    rw [if_neg (by intro hc; exact hc.2 h1)]
  · intro hnone
    have h1 : (groupLoop [] lines).1 = [] := scan_no_marker hnone []
    simp only [group_verse_lines]
    rw [if_neg (by intro hc; exact hc.2 h1)]
    exact h1

/-! ## Claim C7 — order preservation of indices -/

/-- C7: the sequence of `index` values of the records returned by
`group_verse_lines` equals the sequence of dotted identifiers of the
marker-carrying lines in document order. -/
theorem claimC7_theorem :
    ∀ lines : List (List Char),
      (group_verse_lines lines).map VerseRecord.index = markerIndices lines := by
  intro lines
  rw [map_index_group, scan_indices]

/-! ## Claim C9 — totality and well-formed results -/

/-- C9: the grouper, the section locator and the classifier are total Lean
functions (they terminate on every finite input by construction); the empty
input yields zero records, locator offset 0 and no marker; and every record
of any run is well-formed: its index is non-empty, of the dotted numeric
shape. -/
theorem claimC9_theorem :
    ∀ lines : List (List Char),
      (∀ rec ∈ group_verse_lines lines, rec.index ≠ [] ∧ IdxForm rec.index) ∧
      group_verse_lines [] = [] ∧
      find_text_section [] = 0 ∧
      detect_verse_format [] = none := by
  intro lines
  refine ⟨?_, rfl, rfl, rfl⟩
  intro rec hrec
  have hidx : rec.index ∈ markerIndices lines := by
    rw [← scan_indices ([] : List (List Char)) lines, ← map_index_group]
    exact List.mem_map_of_mem VerseRecord.index hrec
  obtain ⟨l, _, hf⟩ := List.mem_filterMap.mp hidx
  rcases hd : detect_verse_format l with _ | ⟨cc, ii⟩
  · rw [hd] at hf; simp at hf
  · rw [hd] at hf
    simp at hf
    subst hf
    obtain ⟨_, _, hform⟩ := detect_post hd
    refine ⟨?_, hform⟩
    obtain ⟨d1, d2, hi, hd1, _, _, _⟩ := hform
    rw [hi]
    simp [hd1]

/-! ## splitNL lemmas and the resynthesized-line lemma -/

theorem splitNL_ne_nil (v : List Char) : splitNL v ≠ [] := by
  cases v with
  | nil => simp [splitNL]
  | cons c rest =>
    simp only [splitNL]
    split
    · simp
    · split <;> simp

theorem splitNL_no_nl {v : List Char} (h : ∀ x ∈ v, x ≠ '\n') : splitNL v = [v] := by
  induction v with
  | nil => rfl
  | cons c rest ih =>
    have hc : c ≠ '\n' := h c (by simp)
    have hrest : splitNL rest = [rest] := ih (fun x hx => h x (by simp [hx]))
    simp [splitNL, hc, hrest]

theorem splitNL_append_nl (a b : List Char) :
    splitNL (a ++ '\n' :: b) = splitNL a ++ splitNL b := by
  induction a with
  | nil => simp [splitNL]
  | cons c a' ih =>
    by_cases hc : c = '\n'
    · subst hc
      simp [splitNL, ih]
    · rcases hs : splitNL a' with _ | ⟨s, ss⟩
      · exact absurd hs (splitNL_ne_nil a')
      · rw [hs] at ih
        simp only [List.cons_append, splitNL, hc, if_false, List.append_eq, ih, hs]

theorem stripped_of_pyStrip_eq {l : List Char} (h : pyStrip l = l) : Stripped l :=
  h ▸ stripped_pyStrip l

/-- Re-synthesizing a *single-line* record as `content // Avg_<index>` and
classifying it yields back exactly the content and the index: the added
` // Avg_` tail forms the unique end-anchored decomposition. -/
theorem detect_resynth {c i : List Char} (hstr : pyStrip c = c)
    (hnl : ∀ x ∈ c, x ≠ '\n') (hidx : IdxForm i) :
    detect_verse_format (c ++ (" // Avg_").data ++ i) = some (c, i) := by
  obtain ⟨d1, d2, hi, hd1ne, hd2ne, hd1, hd2⟩ := hidx
  have hlasti : ∀ y, i.getLast? = some y → pySpace y = false := by
    intro y hy
    rw [hi] at hy
    have : (d1 ++ '.' :: d2).getLast? = d2.getLast? := by
      rw [show ('.' :: d2) = ['.'] ++ d2 by rfl, ← List.append_assoc, List.getLast?_append]
      rcases hg : d2.getLast? with _ | z
      · exact absurd (List.getLast?_eq_none_iff.mp hg) hd2ne
      · rfl
    rw [this] at hy
    have hmem : y ∈ d2 := List.mem_of_mem_getLast? hy
    exact not_pySpace_of_isDigitC (hd2 y hmem)
  have hine : i ≠ [] := by
    rw [hi]; simp
  have hdata : (" // Avg_").data = [' ', '/', '/', ' ', 'A', 'v', 'g', '_'] := rfl
  have htail_last : ∀ t : List Char,
      (('/' : Char) :: '/' :: ' ' :: 'A' :: 'v' :: 'g' :: '_' :: i).getLast? = i.getLast? := by
    intro t
    rw [show (('/' : Char) :: '/' :: ' ' :: 'A' :: 'v' :: 'g' :: '_' :: i) =
      ['/', '/', ' ', 'A', 'v', 'g', '_'] ++ i from rfl, List.getLast?_append]
    rcases hg : i.getLast? with _ | z
    · exact absurd (List.getLast?_eq_none_iff.mp hg) hine
    · rfl
  rcases hc : c with _ | ⟨c0, cr⟩
  · -- empty content: the leading space of " // Avg_" is stripped away
    have h1 : ((" // Avg_").data ++ i).dropWhile pySpace =
        '/' :: '/' :: ' ' :: 'A' :: 'v' :: 'g' :: '_' :: i := by
      rw [hdata]
      rw [show ([' ', '/', '/', ' ', 'A', 'v', 'g', '_'] ++ i) =
        (' ' :: '/' :: '/' :: ' ' :: 'A' :: 'v' :: 'g' :: '_' :: i) from by simp]
      rw [List.dropWhile_cons, if_pos (by decide), List.dropWhile_cons, if_neg (by decide)]
    have h2 : pyStrip ((" // Avg_").data ++ i) =
        '/' :: '/' :: ' ' :: 'A' :: 'v' :: 'g' :: '_' :: i := by
      unfold pyStrip
      rw [h1]
      rw [dropWhile_eq_self_of_head (by
        intro y hy
        rw [List.head?_reverse, htail_last ([] : List Char)] at hy
        exact hlasti y hy)]
      exact List.reverse_reverse _
    unfold detect_verse_format
    rw [List.nil_append, h2]
    refine mv_complete ⟨[], [' '], d1, d2, [], ?_, ?_, ?_, hd1ne, hd2ne, hd1, hd2, ?_, ?_, ?_⟩
    · rw [hi]; simp
    · intro x hx; simp at hx; subst hx; decide
    · intro x hx; simp at hx
    · intro x hx; simp at hx
    · rfl
    · exact hi
  · -- non-empty stripped content
    have hstripc : Stripped (c0 :: cr) := by
      rw [← hc]; exact stripped_of_pyStrip_eq hstr
    have hSeq : (c0 :: cr) ++ (" // Avg_").data ++ i =
        ((c0 :: cr) ++ [' ']) ++ ('/' :: '/' :: ' ' :: 'A' :: 'v' :: 'g' :: '_' :: i) := by
      rw [hdata]; simp
    have hstripS : Stripped ((c0 :: cr) ++ (" // Avg_").data ++ i) := by
      constructor
      · intro y hy
        rw [List.append_assoc, List.head?_append] at hy
        have hy' : c0 = y := by simpa using hy
        subst hy'
        exact hstripc.1 c0 rfl
      · intro y hy
        rw [hSeq, List.getLast?_append, htail_last ([] : List Char)] at hy
        rcases hg : i.getLast? with _ | z
        · exact absurd (List.getLast?_eq_none_iff.mp hg) hine
        · rw [hg] at hy
          simp at hy
          subst hy
          exact hlasti z hg
    have h2 : pyStrip ((c0 :: cr) ++ (" // Avg_").data ++ i) =
        (c0 :: cr) ++ (" // Avg_").data ++ i := pyStrip_eq_self_of_stripped hstripS
    unfold detect_verse_format
    rw [h2]
    refine mv_complete ⟨(c0 :: cr) ++ [' '], [' '], d1, d2, [], ?_, ?_, ?_, hd1ne, hd2ne,
      hd1, hd2, ?_, ?_, ?_⟩
    · rw [hdata, hi]; simp
    · intro x hx; simp at hx; subst hx; decide
    · intro x hx; simp at hx
    · intro x hx
      rcases List.mem_append.mp hx with hx1 | hx1
      · exact hnl x (by rw [hc]; exact hx1)
      · simp at hx1; subst hx1; decide
    · rw [show ((c0 :: cr) ++ [' ']) = ((c0 :: cr) ++ [' ']) from rfl]
      have := @pyStrip_append_space (c0 :: cr) [' ']
        (by intro x hx; simp at hx; subst hx; decide)
      rw [this, ← hc, hstr]
    · exact hi

/-- A record of the `group_verse_lines` result that is not the (possibly
leftover-modified) last entry already appears in the raw scan output. -/
theorem mem_dropLast_group {rec : VerseRecord} {lines : List (List Char)}
    (h : rec ∈ (group_verse_lines lines).dropLast) :
    rec ∈ (groupLoop [] lines).1 := by
  simp only [group_verse_lines] at h
  split at h
  · rw [List.dropLast_concat] at h
    exact List.mem_of_mem_dropLast h
  · exact List.mem_of_mem_dropLast h

/-- A newline-free record of the `group_verse_lines` result appears in the raw
scan output (the leftover-modified last record always contains a newline). -/
theorem mem_group_of_no_nl {rec : VerseRecord} {lines : List (List Char)}
    (h : rec ∈ group_verse_lines lines) (hnl : ∀ x ∈ rec.verse, x ≠ '\n') :
    rec ∈ (groupLoop [] lines).1 := by
  simp only [group_verse_lines] at h
  split at h
  · rcases List.mem_append.mp h with hh | hh
    · exact List.mem_of_mem_dropLast hh
    · exfalso
      simp only [List.mem_singleton] at hh
      have : '\n' ∈ rec.verse := by
        rw [hh]
        simp
      exact hnl '\n' this rfl
  · exact h

/-! ## Claim C4 — idempotent re-grouping -/

/-- C4, as stated, is false: a record whose verse text spans three lines (here
produced by the trailing-leftover append) does not re-group to itself.  The
input `["x // Avg_1.1", "a", "b"]` yields the single record
`{verse: "x\na\nb", index: "1.1"}`, but re-grouping the re-synthesized text
`"x\na\nb // Avg_1.1"` yields `{verse: "a\nb", index: "1.1"}` —
one record, but not the original. -/
theorem claimC4_counterexample :
    group_verse_lines [("x // Avg_1.1").data, ("a").data, ("b").data] =
      [VerseRecord.mk (("x\na\nb").data) (("1.1").data)] ∧
    group_verse_lines (splitNL ((("x\na\nb").data) ++ (" // Avg_").data ++ (("1.1").data))) =
      [VerseRecord.mk (("a\nb").data) (("1.1").data)] ∧
    VerseRecord.mk (("a\nb").data) (("1.1").data) ≠
      VerseRecord.mk (("x\na\nb").data) (("1.1").data) := by
  refine ⟨by rfl, by rfl, by decide⟩

/-- C4 (amended): for every *single-line* record (verse containing no newline)
produced by the grouper on some input, running the grouper on the line
sequence obtained by splitting the re-synthesized text `verse // Avg_index`
yields exactly one record equal to the original.  (Multi-line records do not
re-group to themselves: see the counterexample.) -/
theorem claimC4_theorem (lines : List (List Char)) (rec : VerseRecord)
    (hmem : rec ∈ group_verse_lines lines)
    (hnl : ∀ x ∈ rec.verse, x ≠ '\n') :
    group_verse_lines (splitNL (rec.verse ++ (" // Avg_").data ++ rec.index)) = [rec] := by
  have hscan := mem_group_of_no_nl hmem hnl
  obtain ⟨l, _, c, hdet, hcase⟩ := scan_mem [] lines hscan
  have hvc : rec.verse = c := by
    rcases hcase with hv | ⟨p, hv⟩
    · exact hv
    · exfalso
      have : '\n' ∈ rec.verse := by
        rw [hv]; simp
      exact hnl '\n' this rfl
  obtain ⟨hstr, hcnl, hform⟩ := detect_post hdet
  have hresyn : detect_verse_format (rec.verse ++ (" // Avg_").data ++ rec.index) =
      some (rec.verse, rec.index) := by
    rw [hvc]
    exact detect_resynth hstr (by rw [← hvc]; exact hnl) hform
  have hinl : ∀ x ∈ rec.index, x ≠ '\n' := by
    obtain ⟨d1, d2, hi, _, _, hd1, hd2⟩ := hform
    intro x hx
    rw [hi] at hx
    rcases List.mem_append.mp hx with hx1 | hx1
    · intro he; subst he; exact absurd (hd1 _ hx1) (by decide)
    · rcases List.mem_cons.mp hx1 with hx2 | hx2
      · subst hx2; decide
      · intro he; subst he; exact absurd (hd2 _ hx2) (by decide)
  have hsplit : splitNL (rec.verse ++ (" // Avg_").data ++ rec.index) =
      [rec.verse ++ (" // Avg_").data ++ rec.index] := by
    refine splitNL_no_nl ?_
    intro x hx
    rcases List.mem_append.mp hx with hx1 | hx1
    · rcases List.mem_append.mp hx1 with hx2 | hx2
      · exact hnl x hx2
      · intro he; subst he; exact absurd hx2 (by decide)
    · exact hinl x hx1
  rw [hsplit]
  set S := rec.verse ++ (" // Avg_").data ++ rec.index with hSdef
  have hSne : pyStrip S ≠ [] := by
    intro h0
    rw [detect_blank h0] at hresyn
    exact absurd hresyn (by simp)
  have hdetS : detect_verse_format (pyStrip S) = some (rec.verse, rec.index) := by
    rw [detect_pyStrip]
    exact hresyn
  have hloop : groupLoop [] [S] = ([VerseRecord.mk rec.verse rec.index], []) := by
    simp [groupLoop, hSne, hdetS, mkRec]
  simp only [group_verse_lines, hloop]
  simp

theorem claimC4_witness :
    group_verse_lines
      (splitNL ((("alpha").data) ++ (" // Avg_").data ++ (("2.1").data))) =
      [VerseRecord.mk (("alpha").data) (("2.1").data)] :=
  claimC4_theorem [("alpha // Avg_2.1").data]
    (VerseRecord.mk (("alpha").data) (("2.1").data)) (by decide) (by decide)

/-! ## Claim C5 — the marker content is the final verse line -/

/-- C5, as stated, is false: the trailing-leftover append puts pending lines
*after* the marker content of the last record.  On `["x // Avg_1.1", "a"]` the
single record's verse is `"x\na"`: its final line `"a"` is a plain pending
line, not the content of the (only) marker line, whose content is `"x"`. -/
theorem claimC5_counterexample :
    group_verse_lines [("x // Avg_1.1").data, ("a").data] =
      [VerseRecord.mk (("x\na").data) (("1.1").data)] ∧
    detect_verse_format (("x // Avg_1.1").data) = some ((("x").data), (("1.1").data)) ∧
    detect_verse_format (("a").data) = none ∧
    lastStr (splitNL (("x\na").data)) ≠ ("x").data := by
  refine ⟨by rfl, by rfl, by rfl, by decide⟩

/-- C5 (amended): for every record except possibly the last one (which may
receive appended leftover lines), the final line of the record's verse text is
the content fragment of an input line carrying the record's terminating
marker; no content line appears after the marker content in those records. -/
theorem claimC5_theorem (lines : List (List Char)) (rec : VerseRecord)
    (hmem : rec ∈ (group_verse_lines lines).dropLast) :
    ∃ l ∈ lines,
      detect_verse_format l = some (lastStr (splitNL rec.verse), rec.index) := by
  have hscan := mem_dropLast_group hmem
  obtain ⟨l, hl, c, hdet, hcase⟩ := scan_mem [] lines hscan
  obtain ⟨_, hcnl, _⟩ := detect_post hdet
  have hlast : lastStr (splitNL rec.verse) = c := by
    rcases hcase with hv | ⟨p, hv⟩
    · rw [hv, splitNL_no_nl hcnl]
      rfl
    · rw [hv, splitNL_append_nl, splitNL_no_nl hcnl]
      exact lastStr_append (by simp)
  exact ⟨l, hl, by rw [hlast]; exact hdet⟩

theorem claimC5_witness :
    ∃ l ∈ [("a").data, ("x // Avg_1.1").data, ("y // Avg_2.2").data],
      detect_verse_format l =
        some (lastStr (splitNL (("a\nx").data)), (("1.1").data)) :=
  claimC5_theorem [("a").data, ("x // Avg_1.1").data, ("y // Avg_2.2").data]
    (VerseRecord.mk (("a\nx").data) (("1.1").data)) (by decide)

/-! ## Claim C6 — blank-line invariance -/

/-- Relation holding when `ys` is `xs` with extra blank (whitespace-only) lines inserted anywhere
(including before the first and after the last line). -/
inductive BlankInsertion : List (List Char) → List (List Char) → Prop
  | nil : BlankInsertion [] []
  | keep (x : List Char) {xs ys : List (List Char)} :
      BlankInsertion xs ys → BlankInsertion (x :: xs) (x :: ys)
  | blank (b : List Char) {xs ys : List (List Char)} :
      pyStrip b = [] → BlankInsertion xs ys → BlankInsertion xs (b :: ys)

theorem bi_all_blank {xs ys : List (List Char)} (h : BlankInsertion xs ys)
    (hx : xs = []) : ∀ b ∈ ys, pyStrip b = [] := by
  induction h with
  | nil => simp
  | keep x h ih => exact absurd hx (by simp)
  | blank b hb h ih =>
    intro y hy
    rcases List.mem_cons.mp hy with hy1 | hy2
    · rw [hy1]; exact hb
    · exact ih hx y hy2

theorem bi_cons_inv {z : List Char} {zs ys : List (List Char)}
    (h : BlankInsertion (z :: zs) ys) :
    ∃ bs ys1, ys = bs ++ z :: ys1 ∧ (∀ b ∈ bs, pyStrip b = []) ∧
      BlankInsertion zs ys1 := by
  generalize hxs : z :: zs = xs at h
  induction h with
  | nil => exact absurd hxs (by simp)
  | keep x h ih =>
    rename_i xs0 ys0
    rw [List.cons.injEq] at hxs
    obtain ⟨hz, hzs⟩ := hxs
    subst hz
    subst hzs
    exact ⟨[], ys0, rfl, by simp, h⟩
  | blank b hb h ih =>
    obtain ⟨bs, ys1, hys, hbs, h1⟩ := ih hxs
    refine ⟨b :: bs, ys1, by rw [hys]; rfl, ?_, h1⟩
    intro y hy
    rcases List.mem_cons.mp hy with hy1 | hy2
    · rw [hy1]; exact hb
    · exact hbs y hy2

/-- The no-marker step of the scan: when the line is non-blank with no marker
and the next line (if any) is blank or has no marker, the line simply moves
into the pending buffer. -/
theorem groupLoop_none_step {l : List Char} (hne : pyStrip l ≠ [])
    (hdet : detect_verse_format l = none) (pending rest : List (List Char))
    (hrest : rest = [] ∨ ∃ nl rest2, rest = nl :: rest2 ∧
      (pyStrip nl = [] ∨ detect_verse_format nl = none)) :
    groupLoop pending (l :: rest) = groupLoop (pending ++ [pyStrip l]) rest := by
  have hdetP : detect_verse_format (pyStrip l) = none := by
    rw [detect_pyStrip]; exact hdet
  rcases hrest with hr | ⟨nl, rest2, hr, hcase⟩
  · subst hr
    simp [groupLoop, hne, hdetP]
  · subst hr
    rcases hcase with hb | hnone
    · simp [groupLoop, hne, hdetP, hb]
    · have hnoneP : detect_verse_format (pyStrip nl) = none := by
        rw [detect_pyStrip]; exact hnone
      by_cases hnb : pyStrip nl = []
      · simp [groupLoop, hne, hdetP, hnb]
      · simp [groupLoop, hne, hdetP, hnb, hnoneP]

/-- The eager-combination step of the scan: a non-marker line immediately
followed by a marker line forms a record at once, consuming both. -/
theorem groupLoop_none_eager {l nl nc nidx : List Char} {rest2 : List (List Char)}
    (hne : pyStrip l ≠ []) (hdet : detect_verse_format l = none)
    (hnne : pyStrip nl ≠ []) (hdet2 : detect_verse_format nl = some (nc, nidx))
    (pending : List (List Char)) :
    groupLoop pending (l :: nl :: rest2) =
      (⟨pyStrip l ++ '\n' :: nc, nidx⟩ :: (groupLoop [] rest2).1,
        (groupLoop [] rest2).2) := by
  have hdetP : detect_verse_format (pyStrip l) = none := by
    rw [detect_pyStrip]; exact hdet
  have hdet2P : detect_verse_format (pyStrip nl) = some (nc, nidx) := by
    rw [detect_pyStrip]; exact hdet2
  simp [groupLoop, hne, hdetP, hnne, hdet2P]

theorem mkRec_append_pending (pending : List (List Char)) (line nc nidx : List Char) :
    mkRec (pending ++ [line]) nc nidx = ⟨line ++ '\n' :: nc, nidx⟩ := by
  unfold mkRec
  rw [if_neg (by simp), lastStr_append_single]

theorem groupLoop_blankInsensitive :
    ∀ (n : Nat) (xs ys pending : List (List Char)), ys.length ≤ n →
      BlankInsertion xs ys → groupLoop pending xs = groupLoop pending ys := by
  intro n
  induction n with
  | zero =>
    intro xs ys pending hlen h
    have hys : ys = [] := by
      cases ys with
      | nil => rfl
      | cons a as => simp at hlen
    subst hys
    cases h
    rfl
  | succ n ih =>
    intro xs ys pending hlen h
    cases h with
    | nil => rfl
    | blank b hb h' =>
      rename_i ys'
      rw [groupLoop_blank_cons hb]
      exact ih xs ys' pending (by simpa using Nat.le_of_succ_le_succ (by simpa using hlen)) h'
    | keep x h' =>
      rename_i xs0 ys0
      have hlen0 : ys0.length ≤ n := by simpa using Nat.le_of_succ_le_succ (by simpa using hlen)
      by_cases hbx : pyStrip x = []
      · rw [groupLoop_blank_cons hbx, groupLoop_blank_cons hbx]
        exact ih xs0 ys0 pending hlen0 h'
      · rcases hdetx : detect_verse_format x with _ | ⟨c, idx⟩
        · -- x carries no marker: case on the head of xs0
          rcases hxs0 : xs0 with _ | ⟨x1, xs1⟩
          · -- nothing follows x in the original; all of ys0 is inserted blanks
            subst hxs0
            have hblanks := bi_all_blank h' rfl
            rw [groupLoop_none_step hbx hdetx pending [] (Or.inl rfl)]
            rw [groupLoop_none_step hbx hdetx pending ys0 (by
              rcases ys0 with _ | ⟨b0, t0⟩
              · exact Or.inl rfl
              · exact Or.inr ⟨b0, t0, rfl, Or.inl (hblanks b0 (by simp))⟩)]
            exact ih [] ys0 (pending ++ [pyStrip x]) hlen0 h'
          · subst hxs0
            obtain ⟨bs, ys1, hys0, hbs, h1⟩ := bi_cons_inv h'
            by_cases hbx1 : pyStrip x1 = []
            · -- next original line is blank: both sides take the pending step
              rw [groupLoop_none_step hbx hdetx pending (x1 :: xs1)
                (Or.inr ⟨x1, xs1, rfl, Or.inl hbx1⟩)]
              rw [groupLoop_none_step hbx hdetx pending ys0 (by
                rcases hbs0 : bs with _ | ⟨b0, t0⟩
                · subst hbs0
                  exact Or.inr ⟨x1, ys1, by simpa using hys0, Or.inl hbx1⟩
                · exact Or.inr ⟨b0, t0 ++ x1 :: ys1, by rw [hys0, hbs0]; rfl,
                    Or.inl (hbs b0 (by rw [hbs0]; simp))⟩)]
              exact ih (x1 :: xs1) ys0 (pending ++ [pyStrip x]) hlen0 h'
            · rcases hdetx1 : detect_verse_format x1 with _ | ⟨nc, nidx⟩
              · -- next original line has no marker either: pending step on both sides
                rw [groupLoop_none_step hbx hdetx pending (x1 :: xs1)
                  (Or.inr ⟨x1, xs1, rfl, Or.inr hdetx1⟩)]
                rw [groupLoop_none_step hbx hdetx pending ys0 (by
                  rcases hbs0 : bs with _ | ⟨b0, t0⟩
                  · subst hbs0
                    exact Or.inr ⟨x1, ys1, by simpa using hys0, Or.inr hdetx1⟩
                  · exact Or.inr ⟨b0, t0 ++ x1 :: ys1, by rw [hys0, hbs0]; rfl,
                      Or.inl (hbs b0 (by rw [hbs0]; simp))⟩)]
                exact ih (x1 :: xs1) ys0 (pending ++ [pyStrip x]) hlen0 h'
              · -- the next original line carries a marker: eager combination
                have hlen1 : ys1.length ≤ n := by
                  have : ys0.length = bs.length + (ys1.length + 1) := by
                    rw [hys0]; simp [Nat.add_comm]
                  omega
                have hrec := ih xs1 ys1 [] hlen1 h1
                rcases hbs0 : bs with _ | ⟨b0, t0⟩
                · -- no blanks inserted between x1 and x
                  subst hbs0
                  rw [show ([] : List (List Char)) ++ x1 :: ys1 = x1 :: ys1 from rfl] at hys0
                  subst hys0
                  rw [groupLoop_none_eager hbx hdetx hbx1 hdetx1 pending,
                    groupLoop_none_eager hbx hdetx hbx1 hdetx1 pending, hrec]
                · -- blanks inserted: the combination happens through the pending
                  -- buffer and the marker branch instead, with the same record
                  subst hbs0
                  rw [groupLoop_none_eager hbx hdetx hbx1 hdetx1 pending]
                  rw [groupLoop_none_step hbx hdetx pending ys0
                    (Or.inr ⟨b0, t0 ++ x1 :: ys1, by rw [hys0]; rfl,
                      Or.inl (hbs b0 (by simp))⟩)]
                  rw [hys0, groupLoop_blank_append hbs]
                  rw [groupLoop_marker hdetx1]
                  rw [mkRec_append_pending, hrec]
        · -- x itself carries a marker: one record on both sides, then recurse
          have hrec := ih xs0 ys0 [] hlen0 h'
          rw [groupLoop_marker hdetx, groupLoop_marker hdetx, hrec]

/-- C6: inserting blank (whitespace-only) lines anywhere between (or around)
the lines of a document never changes the grouper's output, and a blank line
is never classified as a marker. -/
theorem claimC6_theorem (xs ys : List (List Char)) (h : BlankInsertion xs ys) :
    group_verse_lines xs = group_verse_lines ys ∧
    (∀ b : List Char, pyStrip b = [] → detect_verse_format b = none) := by
  constructor
  · have hloop : groupLoop [] xs = groupLoop [] ys :=
      groupLoop_blankInsensitive ys.length xs ys [] le_rfl h
    simp only [group_verse_lines, hloop]
  · intro b hb
    exact detect_blank hb

theorem claimC6_witness :
    group_verse_lines [("a").data, ("x // Avg_1.1").data] =
      group_verse_lines [("a").data, ("").data, ("x // Avg_1.1").data] ∧
    (∀ b : List Char, pyStrip b = [] → detect_verse_format b = none) :=
  claimC6_theorem [("a").data, ("x // Avg_1.1").data]
    [("a").data, ("").data, ("x // Avg_1.1").data]
    (BlankInsertion.keep (("a").data)
      (BlankInsertion.blank (("").data) (by rfl)
        (BlankInsertion.keep (("x // Avg_1.1").data) BlankInsertion.nil)))

/-! ## Claim C8 — the section locator -/

theorem countLeadingBlank_le (ls : List (List Char)) :
    countLeadingBlank ls ≤ ls.length := by
  induction ls with
  | nil => simp [countLeadingBlank]
  | cons l ls ih =>
    simp only [countLeadingBlank, List.length_cons]
    split
    · omega
    · omega

/-- The blank-skip loop splits its input into the maximal blank prefix and the
rest. -/
theorem countLeadingBlank_decomp (post : List (List Char)) :
    ∃ bs rest, post = bs ++ rest ∧ (∀ b ∈ bs, pyStrip b = []) ∧
      (rest = [] ∨ ∃ h t, rest = h :: t ∧ pyStrip h ≠ []) ∧
      bs.length = countLeadingBlank post := by
  induction post with
  | nil => exact ⟨[], [], rfl, by simp, Or.inl rfl, rfl⟩
  | cons l ls ih =>
    by_cases hb : pyStrip l = []
    · obtain ⟨bs, rest, hpost, hbs, hrest, hlen⟩ := ih
      refine ⟨l :: bs, rest, by rw [hpost]; rfl, ?_, hrest, ?_⟩
      · intro b hbmem
        rcases List.mem_cons.mp hbmem with h1 | h2
        · rw [h1]; exact hb
        · exact hbs b h2
      · simp [countLeadingBlank, hb, hlen]
    · exact ⟨[], l :: ls, rfl, by simp, Or.inr ⟨l, ls, rfl, hb⟩,
        by simp [countLeadingBlank, hb]⟩

theorem findAfterMarker_none {lines : List (List Char)}
    (h : ∀ l ∈ lines, pyStrip l ≠ TEXT_START_MARKER) :
    findAfterMarker lines = none := by
  induction lines with
  | nil => rfl
  | cons l ls ih =>
    simp only [findAfterMarker]
    rw [if_neg (h l (by simp)), ih (fun x hx => h x (by simp [hx]))]
    rfl

theorem findAfterMarker_eq (pre : List (List Char)) (l : List Char)
    (post : List (List Char)) (hpre : ∀ p ∈ pre, pyStrip p ≠ TEXT_START_MARKER)
    (hl : pyStrip l = TEXT_START_MARKER) :
    findAfterMarker (pre ++ l :: post) =
      some (pre.length + 1 + countLeadingBlank post) := by
  induction pre with
  | nil =>
    simp only [List.nil_append, findAfterMarker]
    rw [if_pos hl]
    simp
  | cons p pre' ih =>
    simp only [List.cons_append, findAfterMarker, List.append_eq]
    rw [if_neg (hpre p (by simp))]
    rw [ih (fun x hx => hpre x (by simp [hx]))]
    simp only [Option.map_some', List.length_cons]
    congr 1
    omega

theorem findAfterMarker_le {lines : List (List Char)} {r : Nat}
    (h : findAfterMarker lines = some r) : r ≤ lines.length := by
  induction lines generalizing r with
  | nil => simp [findAfterMarker] at h
  | cons l ls ih =>
    simp only [findAfterMarker] at h
    split at h
    · have : r = 1 + countLeadingBlank ls := by
        simpa using h.symm
      have := countLeadingBlank_le ls
      simp [List.length_cons]
      omega
    · rcases hf : findAfterMarker ls with _ | r'
      · rw [hf] at h; simp at h
      · rw [hf] at h
        simp at h
        have := ih hf
        simp [List.length_cons]
        omega

theorem findAvg_none {lines : List (List Char)}
    (h : ∀ l ∈ lines, containsAvg l = false) : findAvg lines = none := by
  induction lines with
  | nil => rfl
  | cons l ls ih =>
    simp only [findAvg]
    rw [if_neg (by rw [h l (by simp)]; simp), ih (fun x hx => h x (by simp [hx]))]
    rfl

theorem findAvg_eq (pre : List (List Char)) (l : List Char) (post : List (List Char))
    (hpre : ∀ p ∈ pre, containsAvg p = false) (hl : containsAvg l = true) :
    findAvg (pre ++ l :: post) = some pre.length := by
  induction pre with
  | nil => simp [findAvg, hl]
  | cons p pre' ih =>
    simp only [List.cons_append, findAvg, List.append_eq]
    rw [if_neg (by rw [hpre p (by simp)]; simp)]
    rw [ih (fun x hx => hpre x (by simp [hx]))]
    simp

theorem findAvg_le {lines : List (List Char)} {r : Nat}
    (h : findAvg lines = some r) : r ≤ lines.length := by
  induction lines generalizing r with
  | nil => simp [findAvg] at h
  | cons l ls ih =>
    simp only [findAvg] at h
    split at h
    · simp at h
      omega
    · rcases hf : findAvg ls with _ | r'
      · rw [hf] at h; simp at h
      · rw [hf] at h
        simp at h
        have := ih hf
        simp [List.length_cons]
        omega

/-- C8: the locator always returns an offset within `[0, length]`; when a
trimmed line equals `"# Text"`, the offset points just past the first such
line and past the blank lines immediately following it (`bs` below, with the
remainder either empty or starting non-blank); otherwise, when a line
contains the substring `"Avg_"`, the offset is the position of the first such
line; otherwise the offset is 0.  On the five-line scenario document the
offset is 3. -/
theorem claimC8_theorem :
    ∀ lines : List (List Char),
      find_text_section lines ≤ lines.length ∧
      (∀ pre l post, lines = pre ++ l :: post →
        (∀ p ∈ pre, pyStrip p ≠ TEXT_START_MARKER) →
        pyStrip l = TEXT_START_MARKER →
        ∃ bs rest, post = bs ++ rest ∧ (∀ b ∈ bs, pyStrip b = []) ∧
          (rest = [] ∨ ∃ h t, rest = h :: t ∧ pyStrip h ≠ []) ∧
          find_text_section lines = pre.length + 1 + bs.length) ∧
      (∀ pre l post, lines = pre ++ l :: post →
        (∀ q ∈ lines, pyStrip q ≠ TEXT_START_MARKER) →
        (∀ p ∈ pre, containsAvg p = false) → containsAvg l = true →
        find_text_section lines = pre.length) ∧
      ((∀ q ∈ lines, pyStrip q ≠ TEXT_START_MARKER) →
        (∀ q ∈ lines, containsAvg q = false) →
        find_text_section lines = 0) ∧
      find_text_section [("Header").data, ("# Text").data, ("").data,
        ("line one content // Avg_1.1").data,
        ("line two content // Avg_1.2").data] = 3 := by
  intro lines
  refine ⟨?_, ?_, ?_, ?_, by rfl⟩
  · unfold find_text_section
    rcases hm : findAfterMarker lines with _ | r
    · rcases ha : findAvg lines with _ | j
      · simp
      · exact findAvg_le ha
    · exact findAfterMarker_le hm
  · intro pre l post hsplit hpre hl
    obtain ⟨bs, rest, hpost, hbs, hrest, hlen⟩ := countLeadingBlank_decomp post
    refine ⟨bs, rest, hpost, hbs, hrest, ?_⟩
    unfold find_text_section
    rw [hsplit, findAfterMarker_eq pre l post hpre hl, hlen]
  · intro pre l post hsplit hnomark hpre hl
    unfold find_text_section
    rw [findAfterMarker_none hnomark]
    rw [hsplit, findAvg_eq pre l post hpre hl]
  · intro hnomark hnoavg
    unfold find_text_section
    rw [findAfterMarker_none hnomark, findAvg_none hnoavg]

end AvgExtractor
